import Mathlib

/-!
Verification of the kernel SVM implementation (simplified SMO trainer,
binary decision function and one-vs-one multiclass ensemble).

The numeric computations of the source are embedded over `ℚ`; machine
loops become explicit state-passing functions, the unbounded training
loop is given an explicit fuel parameter, and the random draw of the
second optimization index is modelled by an oracle
`oracle : ℕ → Fin n → Fin n` giving, for each attempt number and current
first index, the second index produced by the source's rejection loop
(hence the hypothesis `oracle t i ≠ i` in theorems).
-/

set_option maxHeartbeats 1000000

namespace KernelSVM

/-- State of the simplified SMO training loop: the dual coefficients
`alpha`, the intercept `b`, the number of pair-evaluation attempts made
so far `t` (the position in the random stream), the number of changed
coefficients in the current pass `changed`, and the consecutive
unproductive-pass counter `count`. -/
structure SMOState (n : ℕ) where
  alpha : Fin n → ℚ
  b : ℚ
  t : ℕ
  changed : ℕ
  count : ℕ

/-- Error value `E(x) = intercept + Σ_k alpha(k) y(k) K(k,x) - y(x)`. -/
def errAt {n : ℕ} (K : Fin n → Fin n → ℚ) (y : Fin n → ℚ)
    (a : Fin n → ℚ) (b : ℚ) (x : Fin n) : ℚ :=
  b + (∑ k, a k * y k * K k x) - y x

/-- Lower box bound `L` for the update of `alpha(j)`. -/
def lowOf {n : ℕ} (y : Fin n → ℚ) (C : ℚ) (a : Fin n → ℚ) (i j : Fin n) : ℚ :=
  if y i = y j then max 0 (a j + a i - C) else max 0 (a j - a i)

/-- Upper box bound `H` for the update of `alpha(j)`. -/
def highOf {n : ℕ} (y : Fin n → ℚ) (C : ℚ) (a : Fin n → ℚ) (i j : Fin n) : ℚ :=
  if y i = y j then min C (a j + a i) else min C (C + a j - a i)

/-- Curvature `eta = 2 K(i,j) - K(i,i) - K(j,j)`. -/
def etaOf {n : ℕ} (K : Fin n → Fin n → ℚ) (i j : Fin n) : ℚ :=
  2 * K i j - K i i - K j j

/-- Unclipped candidate for the new `alpha(j)`.  The division operation is
a parameter `dvd` so that the reachability of a zero divisor can be stated. -/
def ajCand {n : ℕ} (K : Fin n → Fin n → ℚ) (y : Fin n → ℚ)
    (dvd : ℚ → ℚ → ℚ) (a : Fin n → ℚ) (b : ℚ) (i j : Fin n) : ℚ :=
  a j - dvd (y j * (errAt K y a b i - errAt K y a b j)) (etaOf K i j)

/-- New `alpha(j)`: the candidate clipped to `[L, H]` (first `min H`, then
`max L`, as in the source). -/
def ajNew {n : ℕ} (K : Fin n → Fin n → ℚ) (y : Fin n → ℚ) (C : ℚ)
    (dvd : ℚ → ℚ → ℚ) (a : Fin n → ℚ) (b : ℚ) (i j : Fin n) : ℚ :=
  max (lowOf y C a i j) (min (highOf y C a i j) (ajCand K y dvd a b i j))

/-- New `alpha(i) = alpha(i) + y(i) y(j) (alphaJold - alphaJnew)`. -/
def aiNew {n : ℕ} (K : Fin n → Fin n → ℚ) (y : Fin n → ℚ) (C : ℚ)
    (dvd : ℚ → ℚ → ℚ) (a : Fin n → ℚ) (b : ℚ) (i j : Fin n) : ℚ :=
  a i + y i * y j * (a j - ajNew K y C dvd a b i j)

/-- Intercept candidate `b1`. -/
def b1Of {n : ℕ} (K : Fin n → Fin n → ℚ) (y : Fin n → ℚ) (C : ℚ)
    (dvd : ℚ → ℚ → ℚ) (a : Fin n → ℚ) (b : ℚ) (i j : Fin n) : ℚ :=
  b - errAt K y a b i
    - y i * (aiNew K y C dvd a b i j - a i) * K i j
    - y j * (ajNew K y C dvd a b i j - a j) * K i j

/-- Intercept candidate `b2`. -/
def b2Of {n : ℕ} (K : Fin n → Fin n → ℚ) (y : Fin n → ℚ) (C : ℚ)
    (dvd : ℚ → ℚ → ℚ) (a : Fin n → ℚ) (b : ℚ) (i j : Fin n) : ℚ :=
  b - errAt K y a b j
    - y i * (aiNew K y C dvd a b i j - a i) * K i j
    - y j * (ajNew K y C dvd a b i j - a j) * K j j

/-- New intercept chosen among `b1`, `b2` and their average. -/
def newB {n : ℕ} (K : Fin n → Fin n → ℚ) (y : Fin n → ℚ) (C : ℚ)
    (dvd : ℚ → ℚ → ℚ) (a : Fin n → ℚ) (b : ℚ) (i j : Fin n) : ℚ :=
  if 0 < aiNew K y C dvd a b i j ∧ aiNew K y C dvd a b i j < C then
    b1Of K y C dvd a b i j
  else if 0 < ajNew K y C dvd a b i j ∧ ajNew K y C dvd a b i j < C then
    b2Of K y C dvd a b i j
  else (b1Of K y C dvd a b i j + b2Of K y C dvd a b i j) / 2

/-- KKT violation test deciding whether an update is attempted at index `i`. -/
def kktViolated {n : ℕ} (K : Fin n → Fin n → ℚ) (y : Fin n → ℚ) (C tol : ℚ)
    (a : Fin n → ℚ) (b : ℚ) (i : Fin n) : Prop :=
  (y i * errAt K y a b i < -tol ∧ a i < C) ∨
  (tol < y i * errAt K y a b i ∧ 0 < a i)

instance {n : ℕ} (K : Fin n → Fin n → ℚ) (y : Fin n → ℚ) (C tol : ℚ)
    (a : Fin n → ℚ) (b : ℚ) (i : Fin n) :
    Decidable (kktViolated K y C tol a b i) := by
  unfold kktViolated; infer_instance

/-- One iteration of the inner `for` loop of `Train` at index `i`:
if the KKT condition is violated, draw the second index from the oracle and
attempt the pair update, with the three skip conditions of the source. -/
def doIndexD {n : ℕ} (K : Fin n → Fin n → ℚ) (y : Fin n → ℚ) (C tol : ℚ)
    (oracle : ℕ → Fin n → Fin n) (dvd : ℚ → ℚ → ℚ)
    (s : SMOState n) (i : Fin n) : SMOState n :=
  if kktViolated K y C tol s.alpha s.b i then
    if lowOf y C s.alpha i (oracle s.t i) = highOf y C s.alpha i (oracle s.t i) then
      { s with t := s.t + 1 }
    else if 0 ≤ etaOf K i (oracle s.t i) then
      { s with t := s.t + 1 }
    else if |ajNew K y C dvd s.alpha s.b i (oracle s.t i) - s.alpha (oracle s.t i)| < tol then
      { s with t := s.t + 1 }
    else
      { alpha := Function.update
          (Function.update s.alpha (oracle s.t i)
            (ajNew K y C dvd s.alpha s.b i (oracle s.t i)))
          i (aiNew K y C dvd s.alpha s.b i (oracle s.t i)),
        b := newB K y C dvd s.alpha s.b i (oracle s.t i),
        t := s.t + 1,
        changed := s.changed + 1,
        count := s.count }
  else s

/-- One full pass of the inner loop over all training indices, with the
per-pass change counter starting at zero. -/
def doPass {n : ℕ} (K : Fin n → Fin n → ℚ) (y : Fin n → ℚ) (C tol : ℚ)
    (oracle : ℕ → Fin n → Fin n) (dvd : ℚ → ℚ → ℚ) (s : SMOState n) : SMOState n :=
  (List.finRange n).foldl (doIndexD K y C tol oracle dvd) { s with changed := 0 }

/-- One iteration of the outer `while (count < max_iter)` loop; a state with
`maxIter ≤ count` is terminal and is left unchanged. -/
def outerStep {n : ℕ} (K : Fin n → Fin n → ℚ) (y : Fin n → ℚ) (C tol : ℚ)
    (maxIter : ℕ) (oracle : ℕ → Fin n → Fin n) (dvd : ℚ → ℚ → ℚ)
    (s : SMOState n) : SMOState n :=
  if maxIter ≤ s.count then s
  else if (doPass K y C tol oracle dvd s).changed = 0 then
    { doPass K y C tol oracle dvd s with
        count := (doPass K y C tol oracle dvd s).count + 1 }
  else { doPass K y C tol oracle dvd s with count := 0 }

/-- Initial training state: all-zero coefficients, zero intercept. -/
def initState (n : ℕ) : SMOState n :=
  { alpha := fun _ => 0, b := 0, t := 0, changed := 0, count := 0 }

/-- The training loop run for `fuel` outer iterations. -/
def trainLoop {n : ℕ} (K : Fin n → Fin n → ℚ) (y : Fin n → ℚ) (C tol : ℚ)
    (maxIter : ℕ) (oracle : ℕ → Fin n → Fin n) (dvd : ℚ → ℚ → ℚ)
    (fuel : ℕ) : SMOState n :=
  (outerStep K y C tol maxIter oracle dvd)^[fuel] (initState n)

/-- The kernel matrix `K(i,j) = kernel.Evaluate(data_i, data_j)`. -/
def kernelMatrix {α : Type} {n : ℕ} (kernel : α → α → ℚ) (data : Fin n → α) :
    Fin n → Fin n → ℚ :=
  fun i j => kernel (data i) (data j)

/-- The internal label remap of `Train`: label `0` becomes `-1`, any other
label becomes `1`. -/
def trainLabels {n : ℕ} (labels : Fin n → ℕ) : Fin n → ℚ :=
  fun i => if labels i = 0 then -1 else 1

/-- `Train` on a dataset: precompute the kernel matrix, remap the labels and
run the SMO loop (with `fuel` outer iterations available). -/
def Train {α : Type} {n : ℕ} (kernel : α → α → ℚ) (data : Fin n → α)
    (labels : Fin n → ℕ) (C tol : ℚ) (maxIter : ℕ)
    (oracle : ℕ → Fin n → Fin n) (fuel : ℕ) : SMOState n :=
  trainLoop (kernelMatrix kernel data) (trainLabels labels) C tol maxIter oracle
    (· / ·) fuel

/-- The invariant of the dual coefficients: every entry lies in `[0, C]`. -/
def inBox {n : ℕ} (C : ℚ) (a : Fin n → ℚ) : Prop :=
  ∀ i, 0 ≤ a i ∧ a i ≤ C

/-- The SVM dual objective `W(alpha) = Σ alpha - (1/2) ΣΣ alpha y alpha y K`,
used as the termination measure of the training loop. -/
def dualW {n : ℕ} (K : Fin n → Fin n → ℚ) (y : Fin n → ℚ) (a : Fin n → ℚ) : ℚ :=
  (∑ k, a k) - (∑ k, ∑ l, a k * y k * (a l * y l) * K k l) / 2

/-- The linear form `F(a, x) = Σ_k a(k) y(k) K(k, x)` (so that
`errAt a b x = b + F(a, x) - y x`). -/
def Fsum {n : ℕ} (K : Fin n → Fin n → ℚ) (y : Fin n → ℚ)
    (a : Fin n → ℚ) (x : Fin n) : ℚ :=
  ∑ k, a k * y k * K k x

/-- The bilinear form `Σ_k Σ_l f(k) g(l) K(k,l)`. -/
def qf {n : ℕ} (K : Fin n → Fin n → ℚ) (f g : Fin n → ℚ) : ℚ :=
  ∑ k, ∑ l, f k * g l * K k l

/-- Indicator of the index `i`. -/
def dta {n : ℕ} (i k : Fin n) : ℚ :=
  if k = i then 1 else 0

/-- A positive lower bound for `-eta` over all pairs with negative curvature. -/
def epsMin {n : ℕ} (K : Fin n → Fin n → ℚ) : ℚ :=
  (((Finset.univ : Finset (Fin n × Fin n)).image
      (fun p => if etaOf K p.1 p.2 < 0 then -(etaOf K p.1 p.2) else 1)) ∪ {1}).min'
    ⟨1, by simp⟩

/-- The minimal increase of the dual objective produced by one accepted
coefficient update. -/
def gainMin {n : ℕ} (K : Fin n → Fin n → ℚ) (tol : ℚ) : ℚ :=
  epsMin K * tol ^ 2 / 2

/-- An upper bound for the dual objective over the box `[0, C]^n`. -/
def Mbound {n : ℕ} (K : Fin n → Fin n → ℚ) (y : Fin n → ℚ) (C : ℚ) : ℚ :=
  n * C + C ^ 2 * (∑ k, ∑ l, |y k * y l * K k l|) / 2

/-- The pruned stored labels computed at the end of `Train`: the label is kept
only where `alpha` exceeds the mean of all alphas, otherwise zeroed. -/
def savedLabels {n : ℕ} (a : Fin n → ℚ) (y : Fin n → ℚ) : Fin n → ℚ :=
  fun i => if (∑ k, a k) / (n : ℚ) < a i then y i else 0

/-- Raw decision value of the stored-label variant of `Classify`: stored
points with a zero stored label are skipped. -/
def predA {α : Type} {n m : ℕ} (kernel : α → α → ℚ) (trainData : Fin n → α)
    (saved : Fin n → ℚ) (a : Fin n → ℚ) (query : Fin m → α) (q : Fin m) : ℚ :=
  ∑ j, if saved j = 0 then 0 else a j * saved j * kernel (query q) (trainData j)

/-- Raw score of the stored-label variant, with optional intercept. -/
def scoresA {α : Type} {n m : ℕ} (kernel : α → α → ℚ) (trainData : Fin n → α)
    (saved : Fin n → ℚ) (a : Fin n → ℚ) (intercept : ℚ) (fitIntercept : Bool)
    (query : Fin m → α) (q : Fin m) : ℚ :=
  if fitIntercept then predA kernel trainData saved a query q + intercept
  else predA kernel trainData saved a query q

/-- Raw decision value of the mean-alpha variant of `Classify`: stored points
whose alpha does not exceed the mean of all alphas are skipped. -/
def predB {α : Type} {n m : ℕ} (kernel : α → α → ℚ) (trainData : Fin n → α)
    (y : Fin n → ℚ) (a : Fin n → ℚ) (query : Fin m → α) (q : Fin m) : ℚ :=
  ∑ j, if a j ≤ (∑ k, a k) / (n : ℚ) then 0
       else a j * y j * kernel (query q) (trainData j)

/-- Raw score of the mean-alpha variant, with optional intercept. -/
def scoresB {α : Type} {n m : ℕ} (kernel : α → α → ℚ) (trainData : Fin n → α)
    (y : Fin n → ℚ) (a : Fin n → ℚ) (intercept : ℚ) (fitIntercept : Bool)
    (query : Fin m → α) (q : Fin m) : ℚ :=
  if fitIntercept then predB kernel trainData y a query q + intercept
  else predB kernel trainData y a query q

/-- Label assignment of `Classify`: the scores are thresholded against the
mean of the scores of the current query batch; a score at or above the mean
gets label `1`, a score below it gets label `0`. -/
def classifyLabelsOf {m : ℕ} (scores : Fin m → ℚ) (q : Fin m) : ℕ :=
  if scores q < (∑ p, scores p) / (m : ℚ) then 0
  else if (∑ p, scores p) / (m : ℚ) ≤ scores q then 1
  else 0

/-- The batch `Classify` overload returning labels, for the stored-label
score variant. -/
def ClassifyBatch {α : Type} {n m : ℕ} (kernel : α → α → ℚ)
    (trainData : Fin n → α) (saved : Fin n → ℚ) (a : Fin n → ℚ)
    (intercept : ℚ) (fitIntercept : Bool) (query : Fin m → α) (q : Fin m) : ℕ :=
  classifyLabelsOf (fun p => scoresA kernel trainData saved a intercept fitIntercept query p) q

/-- The single-point `Classify` overload: the point is wrapped into a batch of
size one and the batch overload is applied. -/
def ClassifyPoint {α : Type} {n : ℕ} (kernel : α → α → ℚ)
    (trainData : Fin n → α) (saved : Fin n → ℚ) (a : Fin n → ℚ)
    (intercept : ℚ) (fitIntercept : Bool) (pt : α) : ℕ :=
  ClassifyBatch kernel trainData saved a intercept fitIntercept (fun _ : Fin 1 => pt) 0

end KernelSVM

namespace MulticlassSVM

/-- The classifier-index-to-class-pair mapping built by the multiclass
`Train`: the nested loop `for i < K, for j in (i, K)` recorded in order. -/
def classPairs (K : ℕ) : List (ℕ × ℕ) :=
  (List.range K).flatMap fun i => (List.range' (i + 1) (K - (i + 1))).map fun j => (i, j)

/-- Vote count received by class `c` for query `q`: each pairwise classifier
thresholds its score against the mean of its own scores over the whole query
batch and votes for the first class of its pair at or above the threshold,
for the second class below it. -/
def voteRow {nc m : ℕ} (pairs : Fin nc → ℕ × ℕ) (S : Fin nc → Fin m → ℚ)
    (q : Fin m) (c : ℕ) : ℚ :=
  ∑ k, ((if (∑ p, S k p) / (m : ℚ) ≤ S k q then
           (if (pairs k).1 = c then (1 : ℚ) else 0) else 0)
      + (if S k q < (∑ p, S k p) / (m : ℚ) then
           (if (pairs k).2 = c then (1 : ℚ) else 0) else 0))

/-- The arg-max procedure of the source (`arma::index_max`): scan the values
in index order and keep the first index achieving the running maximum. -/
def argmaxFirst (Kc : ℕ) (v : ℕ → ℚ) : ℕ :=
  (List.range Kc).foldl (fun best c => if v best < v c then c else best) 0

/-- Multiclass `Classify` of one query point: the class with the most votes,
ties broken by the arg-max scan order. -/
def Classify {nc m : ℕ} (Kc : ℕ) (pairs : Fin nc → ℕ × ℕ)
    (S : Fin nc → Fin m → ℚ) (q : Fin m) : ℕ :=
  argmaxFirst Kc (voteRow pairs S q)

end MulticlassSVM

namespace MulticlassSVM

/-- Auxiliary: the pair list built by the multiclass `Train` has exactly
`K (K-1) / 2` entries. -/
lemma classPairs_length (K : ℕ) : (classPairs K).length = K * (K - 1) / 2 := by
  rw [classPairs, List.length_flatMap]
  have h1 : List.map
      (List.length ∘ fun i => (List.range' (i + 1) (K - (i + 1))).map fun j => (i, j))
      (List.range K) = List.map (fun i => K - (i + 1)) (List.range K) := by
    simp [Function.comp_def]
  rw [h1]
  have h2 : (List.map (fun i => K - (i + 1)) (List.range K)).sum =
      ∑ i ∈ Finset.range K, (K - (i + 1)) := by
    rw [← List.sum_toFinset _ (List.nodup_range K)]
    have h4 : (List.range K).toFinset = Finset.range K := by
      ext x
      simp
    rw [h4]
  rw [h2]
  have h3 : ∀ i ∈ Finset.range K, K - (i + 1) = K - 1 - i := by
    intro i _
    omega
  rw [Finset.sum_congr rfl h3, Finset.sum_range_reflect (fun i => i) K,
    Finset.sum_range_id]

/-- Auxiliary: the pair list has no duplicate entries. -/
lemma classPairs_nodup (K : ℕ) : (classPairs K).Nodup := by
  rw [classPairs, List.nodup_flatMap]
  constructor
  · intro i _
    exact (List.nodup_range' _ _).map (fun a b h => (Prod.mk.injEq _ _ _ _).mp h |>.2)
  · have hlt : List.Pairwise (· < ·) (List.range K) := List.pairwise_lt_range K
    refine hlt.imp ?_
    intro i i' hii x hx hx'
    simp only [Function.onFun, List.mem_map] at hx hx'
    obtain ⟨j, _, rfl⟩ := hx
    obtain ⟨j', _, h⟩ := hx'
    exact absurd ((Prod.mk.injEq _ _ _ _).mp h.symm).1 (Nat.ne_of_lt hii)

/-- Auxiliary: membership in the pair list is exactly the ordered pairs of
distinct classes below `K`. -/
lemma classPairs_mem (K : ℕ) (p : ℕ × ℕ) :
    p ∈ classPairs K ↔ p.1 < p.2 ∧ p.2 < K := by
  obtain ⟨a, b⟩ := p
  rw [classPairs]
  simp only [List.mem_flatMap, List.mem_range, List.mem_map, List.mem_range'_1,
    Prod.mk.injEq]
  constructor
  · rintro ⟨i, hi, j, ⟨hj1, hj2⟩, rfl, rfl⟩
    exact ⟨by omega, by omega⟩
  · rintro ⟨h1, h2⟩
    exact ⟨a, by omega, b, ⟨by omega, by omega⟩, rfl, rfl⟩

/-- C5: the multiclass ensemble builds exactly `K (K-1) / 2` pairwise
classifiers, its classifier-index-to-class-pair list contains every ordered
pair `(a, b)` with `a < b < K` exactly once, and contains nothing else. -/
theorem claim_c5_pairs_exactly_once (K : ℕ) :
    (classPairs K).length = K * (K - 1) / 2 ∧
    (∀ a b : ℕ, a < b → b < K → (classPairs K).count (a, b) = 1) ∧
    (∀ p ∈ classPairs K, p.1 < p.2 ∧ p.2 < K) := by
  refine ⟨classPairs_length K, ?_, ?_⟩
  · intro a b hab hbK
    have h := List.count_eq_one_of_mem (classPairs_nodup K)
      ((classPairs_mem K (a, b)).mpr ⟨hab, hbK⟩)
    rw [← h]
    unfold List.count
    apply List.countP_congr
    intro x _
    simp only [beq_iff_eq]
    exact ⟨fun hh => decide_eq_true hh, fun hh => of_decide_eq_true hh⟩
  · intro p hp
    exact (classPairs_mem K p).mp hp

/-- Auxiliary: invariant of the scan of `argmaxFirst` over a block of
consecutive indices all above the current best index `b`: the result is the
first index achieving the maximum of the values seen. -/
lemma argmax_scan_invariant (v : ℕ → ℚ) :
    ∀ (len s b : ℕ), b < s →
      ((List.range' s len).foldl (fun best c => if v best < v c then c else best) b = b ∨
        (List.range' s len).foldl (fun best c => if v best < v c then c else best) b ∈
          List.range' s len) ∧
      v b ≤ v ((List.range' s len).foldl (fun best c => if v best < v c then c else best) b) ∧
      (∀ c ∈ List.range' s len,
        v c ≤ v ((List.range' s len).foldl (fun best c => if v best < v c then c else best) b)) ∧
      ((List.range' s len).foldl (fun best c => if v best < v c then c else best) b ≠ b →
        v b < v ((List.range' s len).foldl (fun best c => if v best < v c then c else best) b)) ∧
      (∀ c ∈ List.range' s len,
        c < (List.range' s len).foldl (fun best c => if v best < v c then c else best) b →
        v c < v ((List.range' s len).foldl (fun best c => if v best < v c then c else best) b)) := by
  intro len
  induction len with
  | zero =>
    intro s b _
    simp
  | succ len ih =>
    intro s b hbs
    rw [List.range'_succ, List.foldl_cons]
    by_cases hv : v b < v s
    · rw [if_pos hv]
      obtain ⟨hmem, hle, hall, hne, hfirst⟩ := ih (s + 1) s (Nat.lt_succ_self s)
      set r := (List.range' (s + 1) len).foldl (fun best c => if v best < v c then c else best) s
        with hr
      have hbr : v b < v r := lt_of_lt_of_le hv hle
      refine ⟨?_, le_of_lt hbr, ?_, fun _ => hbr, ?_⟩
      · rcases hmem with h | h
        · exact Or.inr (h ▸ List.mem_cons_self s _)
        · exact Or.inr (List.mem_cons_of_mem s h)
      · intro c hc
        rcases List.mem_cons.mp hc with rfl | hc
        · exact hle
        · exact hall c hc
      · intro c hc hcr
        rcases List.mem_cons.mp hc with rfl | hc
        · exact hne (ne_of_gt hcr)
        · exact hfirst c hc hcr
    · rw [if_neg hv]
      obtain ⟨hmem, hle, hall, hne, hfirst⟩ := ih (s + 1) b (Nat.lt_succ_of_lt hbs)
      set r := (List.range' (s + 1) len).foldl (fun best c => if v best < v c then c else best) b
        with hr
      have hsb : v s ≤ v b := not_lt.mp hv
      refine ⟨?_, hle, ?_, hne, ?_⟩
      · rcases hmem with h | h
        · exact Or.inl h
        · exact Or.inr (List.mem_cons_of_mem s h)
      · intro c hc
        rcases List.mem_cons.mp hc with rfl | hc
        · exact le_trans hsb hle
        · exact hall c hc
      · intro c hc hcr
        rcases List.mem_cons.mp hc with rfl | hc
        · have hrb : r ≠ b := by
            intro h
            rw [h] at hcr
            omega
          exact lt_of_le_of_lt hsb (hne hrb)
        · exact hfirst c hc hcr

/-- Auxiliary: `argmaxFirst` returns an index below `Kc` whose value is
maximal, and any index tying with the maximum is at or after it. -/
lemma argmaxFirst_spec (Kc : ℕ) (hKc : 1 ≤ Kc) (v : ℕ → ℚ) :
    argmaxFirst Kc v < Kc ∧
    (∀ c, c < Kc → v c ≤ v (argmaxFirst Kc v)) ∧
    (∀ c, c < Kc → v c = v (argmaxFirst Kc v) → argmaxFirst Kc v ≤ c) := by
  obtain ⟨K0, rfl⟩ : ∃ K0, Kc = K0 + 1 := ⟨Kc - 1, by omega⟩
  have hrange : List.range (K0 + 1) = 0 :: List.range' 1 K0 := by
    rw [List.range_eq_range']
    rfl
  have hfold : argmaxFirst (K0 + 1) v =
      (List.range' 1 K0).foldl (fun best c => if v best < v c then c else best) 0 := by
    rw [argmaxFirst, hrange, List.foldl_cons, if_neg (lt_irrefl (v 0))]
  obtain ⟨hmem, hle, hall, hne, hfirst⟩ := argmax_scan_invariant v K0 1 0 Nat.one_pos
  rw [hfold]
  set r := (List.range' 1 K0).foldl (fun best c => if v best < v c then c else best) 0 with hr
  refine ⟨?_, ?_, ?_⟩
  · rcases hmem with h | h
    · omega
    · have := (List.mem_range'_1).mp h
      omega
  · intro c hc
    rcases Nat.eq_zero_or_pos c with rfl | hc0
    · exact hle
    · exact hall c (List.mem_range'_1.mpr ⟨hc0, by omega⟩)
  · intro c hc hcv
    by_contra hcr
    push_neg at hcr
    rcases Nat.eq_zero_or_pos c with rfl | hc0
    · have hrne : r ≠ 0 := by omega
      exact absurd hcv (ne_of_lt (hne hrne))
    · exact absurd hcv (ne_of_lt (hfirst c (List.mem_range'_1.mpr ⟨hc0, by omega⟩) hcr))

/-- C9: for every query point, the multiclass `Classify` returns a class
below `Kc` receiving a maximal vote count over the pairwise classifiers, and
among the classes tying for the maximum it returns the lowest class index. -/
theorem claim_c9_argmax_votes_lowest_tie {nc m : ℕ} (Kc : ℕ) (hKc : 1 ≤ Kc)
    (pairs : Fin nc → ℕ × ℕ) (S : Fin nc → Fin m → ℚ) (q : Fin m) :
    Classify Kc pairs S q < Kc ∧
    (∀ c, c < Kc → voteRow pairs S q c ≤ voteRow pairs S q (Classify Kc pairs S q)) ∧
    (∀ c, c < Kc → voteRow pairs S q c = voteRow pairs S q (Classify Kc pairs S q) →
      Classify Kc pairs S q ≤ c) :=
  argmaxFirst_spec Kc hKc (voteRow pairs S q)

/-- C9 witness: the arg-max vote statement at a concrete two-class,
one-classifier, one-query instance. -/
theorem claim_c9_witness :
    Classify 2 (fun _ : Fin 1 => (0, 1)) (fun (_ : Fin 1) (_ : Fin 1) => (0 : ℚ))
      (0 : Fin 1) < 2 :=
  (claim_c9_argmax_votes_lowest_tie 2 (by norm_num) (fun _ : Fin 1 => (0, 1))
    (fun (_ : Fin 1) (_ : Fin 1) => (0 : ℚ)) (0 : Fin 1)).1

/-- C5 witness: the pair statement at `K = 4` and the concrete pair `(1, 3)`. -/
theorem claim_c5_witness :
    (classPairs 4).length = 4 * (4 - 1) / 2 ∧ (classPairs 4).count (1, 3) = 1 :=
  ⟨(claim_c5_pairs_exactly_once 4).1,
   (claim_c5_pairs_exactly_once 4).2.1 1 3 (by decide) (by decide)⟩

end MulticlassSVM

namespace KernelSVM

/-- C4: for every model state and query batch, the label returned by the batch
`Classify` overload is `1` exactly when the point's raw score is at or above
the mean of the batch scores, and `0` exactly when it is below the mean. -/
theorem claim_c4_labels_threshold_at_mean {α : Type} {n m : ℕ}
    (kernel : α → α → ℚ) (trainData : Fin n → α) (saved : Fin n → ℚ)
    (a : Fin n → ℚ) (intercept : ℚ) (fitIntercept : Bool)
    (query : Fin m → α) (q : Fin m) :
    (ClassifyBatch kernel trainData saved a intercept fitIntercept query q = 1 ↔
      (∑ p, scoresA kernel trainData saved a intercept fitIntercept query p) / (m : ℚ) ≤
        scoresA kernel trainData saved a intercept fitIntercept query q) ∧
    (ClassifyBatch kernel trainData saved a intercept fitIntercept query q = 0 ↔
      scoresA kernel trainData saved a intercept fitIntercept query q <
        (∑ p, scoresA kernel trainData saved a intercept fitIntercept query p) / (m : ℚ)) := by
  unfold ClassifyBatch classifyLabelsOf
  rcases lt_or_le (scoresA kernel trainData saved a intercept fitIntercept query q)
      ((∑ p, scoresA kernel trainData saved a intercept fitIntercept query p) / (m : ℚ)) with h | h
  · simp [h, not_le.mpr h]
  · simp [h, not_lt.mpr h]

/-- C10: the single-point `Classify` overload always returns label `1`: the
batch has size one, so the mean threshold equals the point's own score and the
at-or-above-mean comparison succeeds. -/
theorem claim_c10_single_point_always_one {α : Type} {n : ℕ}
    (kernel : α → α → ℚ) (trainData : Fin n → α) (saved : Fin n → ℚ)
    (a : Fin n → ℚ) (intercept : ℚ) (fitIntercept : Bool) (pt : α) :
    ClassifyPoint kernel trainData saved a intercept fitIntercept pt = 1 := by
  unfold ClassifyPoint ClassifyBatch classifyLabelsOf
  simp

/-- C7: the two support-retention variants disagree: with identical training
data (two copies of the point `1`), identical coefficients `alpha = (1,1)`,
identical stored labels `(1,1)` and identical intercept `0`, the stored-label
variant scores the query `1` as `2` while the mean-alpha variant scores it
as `0`. -/
theorem claim_c7_variants_differ :
    scoresA (fun a b : ℚ => a * b) (![1, 1] : Fin 2 → ℚ) ![1, 1] ![1, 1] 0 false
        (![1] : Fin 1 → ℚ) 0 ≠
      scoresB (fun a b : ℚ => a * b) (![1, 1] : Fin 2 → ℚ) ![1, 1] ![1, 1] 0 false
        (![1] : Fin 1 → ℚ) 0 := by
  norm_num [scoresA, scoresB, predA, predB, Fin.sum_univ_two,
    Matrix.cons_val_zero, Matrix.cons_val_one, Matrix.head_cons]

/-- C6 counterexample: the input labels `1` and `2` are two distinct values,
yet the trainer remaps both of them to `+1` (neither is mapped to `-1`),
because the remap sends `0` to `-1` and everything else to `+1`. -/
theorem claim_c6_counterexample :
    (![1, 2] : Fin 2 → ℕ) 0 ≠ (![1, 2] : Fin 2 → ℕ) 1 ∧
    trainLabels (n := 2) ![1, 2] 0 = 1 ∧
    trainLabels (n := 2) ![1, 2] 1 = 1 := by
  refine ⟨by decide, by decide, by decide⟩

/-- C6 (amended): the trainer remaps label value `0` to `-1` and every
nonzero label value to `+1`; hence for a pair of distinct input label values
one of which is `0`, the zero-labelled indices get `-1` and the
nonzero-labelled ones get `+1`. -/
theorem claim_c6_amended {n : ℕ} (labels : Fin n → ℕ) (v : ℕ) (hv : v ≠ 0)
    (i j : Fin n) (hi : labels i = 0) (hj : labels j = v) :
    trainLabels labels i = -1 ∧ trainLabels labels j = 1 := by
  constructor
  · simp [trainLabels, hi]
  · simp [trainLabels, hj, hv]

/-- C6 witness: the amended remap statement at the concrete label vector
`(0, 5)`. -/
theorem claim_c6_amended_witness :
    trainLabels (n := 2) ![0, 5] 0 = -1 ∧ trainLabels (n := 2) ![0, 5] 1 = 1 :=
  claim_c6_amended (![0, 5] : Fin 2 → ℕ) 5 (by decide) 0 1 (by decide) (by decide)

/-- C8: the training step divides only by strictly negative `eta` values:
replacing the division operation by any other operation that agrees with it
on strictly negative divisors leaves the step unchanged, so a division by
zero is unreachable. -/
theorem claim_c8_eta_division_guarded {n : ℕ} (K : Fin n → Fin n → ℚ)
    (y : Fin n → ℚ) (C tol : ℚ) (oracle : ℕ → Fin n → Fin n)
    (d1 d2 : ℚ → ℚ → ℚ) (h : ∀ x e : ℚ, e < 0 → d1 x e = d2 x e)
    (s : SMOState n) (i : Fin n) :
    doIndexD K y C tol oracle d1 s i = doIndexD K y C tol oracle d2 s i := by
  unfold doIndexD
  by_cases h1 : kktViolated K y C tol s.alpha s.b i
  · simp only [if_pos h1]
    by_cases h2 : lowOf y C s.alpha i (oracle s.t i) = highOf y C s.alpha i (oracle s.t i)
    · simp [h2]
    · simp only [if_neg h2]
      by_cases h3 : 0 ≤ etaOf K i (oracle s.t i)
      · simp [h3]
      · have heta : etaOf K i (oracle s.t i) < 0 := not_le.mp h3
        have haj : ajNew K y C d1 s.alpha s.b i (oracle s.t i) =
            ajNew K y C d2 s.alpha s.b i (oracle s.t i) := by
          unfold ajNew ajCand
          rw [h _ _ heta]
        have hai : aiNew K y C d1 s.alpha s.b i (oracle s.t i) =
            aiNew K y C d2 s.alpha s.b i (oracle s.t i) := by
          unfold aiNew
          rw [haj]
        have hb1 : b1Of K y C d1 s.alpha s.b i (oracle s.t i) =
            b1Of K y C d2 s.alpha s.b i (oracle s.t i) := by
          unfold b1Of
          rw [haj, hai]
        have hb2 : b2Of K y C d1 s.alpha s.b i (oracle s.t i) =
            b2Of K y C d2 s.alpha s.b i (oracle s.t i) := by
          unfold b2Of
          rw [haj, hai]
        have hnb : newB K y C d1 s.alpha s.b i (oracle s.t i) =
            newB K y C d2 s.alpha s.b i (oracle s.t i) := by
          unfold newB
          rw [haj, hai, hb1, hb2]
        rw [haj, hai, hnb]
  · simp [h1]

/-- C8 witness: the guarded-division statement instantiated with the actual
division and a division that is zero outside negative divisors, at a concrete
one-point state. -/
theorem claim_c8_witness :
    doIndexD (n := 1) (fun _ _ => 1) (fun _ => 1) 1 1 (fun _ i => i) (· / ·)
        (initState 1) 0 =
      doIndexD (n := 1) (fun _ _ => 1) (fun _ => 1) 1 1 (fun _ i => i)
        (fun x e => if e < 0 then x / e else 0) (initState 1) 0 :=
  claim_c8_eta_division_guarded (fun _ _ => 1) (fun _ => 1) 1 1 (fun _ i => i)
    (· / ·) (fun x e => if e < 0 then x / e else 0)
    (fun x e he => by
      show x / e = if e < 0 then x / e else 0
      rw [if_pos he]) (initState 1) 0

/-- Auxiliary: the remapped training labels are `1` or `-1`. -/
lemma trainLabels_pm {n : ℕ} (labels : Fin n → ℕ) (i : Fin n) :
    trainLabels labels i = 1 ∨ trainLabels labels i = -1 := by
  unfold trainLabels
  split_ifs
  · exact Or.inr rfl
  · exact Or.inl rfl

/-- Auxiliary: the lower box bound is nonnegative. -/
lemma lowOf_nonneg {n : ℕ} (y : Fin n → ℚ) (C : ℚ) (a : Fin n → ℚ) (i j : Fin n) :
    0 ≤ lowOf y C a i j := by
  unfold lowOf
  split_ifs <;> exact le_max_left 0 _

/-- Auxiliary: the upper box bound is at most `C`. -/
lemma highOf_le_C {n : ℕ} (y : Fin n → ℚ) (C : ℚ) (a : Fin n → ℚ) (i j : Fin n) :
    highOf y C a i j ≤ C := by
  unfold highOf
  split_ifs <;> exact min_le_left C _

/-- Auxiliary: within the box, the current `alpha(j)` lies between the box
bounds `L` and `H`. -/
lemma alpha_between_bounds {n : ℕ} (y : Fin n → ℚ) (C : ℚ) (a : Fin n → ℚ)
    (i j : Fin n) (h0i : 0 ≤ a i) (hiC : a i ≤ C) (h0j : 0 ≤ a j) (hjC : a j ≤ C) :
    lowOf y C a i j ≤ a j ∧ a j ≤ highOf y C a i j := by
  unfold lowOf highOf
  split_ifs with h
  · exact ⟨max_le h0j (by linarith), le_min hjC (by linarith)⟩
  · exact ⟨max_le h0j (by linarith), le_min hjC (by linarith)⟩

/-- Auxiliary: the clipped new `alpha(j)` lies between `L` and `H`. -/
lemma ajNew_between {n : ℕ} (K : Fin n → Fin n → ℚ) (y : Fin n → ℚ) (C : ℚ)
    (dvd : ℚ → ℚ → ℚ) (a : Fin n → ℚ) (b : ℚ) (i j : Fin n)
    (hLH : lowOf y C a i j ≤ highOf y C a i j) :
    lowOf y C a i j ≤ ajNew K y C dvd a b i j ∧
    ajNew K y C dvd a b i j ≤ highOf y C a i j := by
  unfold ajNew
  exact ⟨le_max_left _ _, max_le hLH (min_le_left _ _)⟩

/-- Auxiliary: the compensating update of `alpha(i)` stays in the box. -/
lemma aiNew_box {n : ℕ} (K : Fin n → Fin n → ℚ) (y : Fin n → ℚ) (C : ℚ)
    (dvd : ℚ → ℚ → ℚ) (a : Fin n → ℚ) (b : ℚ) (i j : Fin n)
    (hyi : y i = 1 ∨ y i = -1) (hyj : y j = 1 ∨ y j = -1)
    (h0i : 0 ≤ a i) (hiC : a i ≤ C) (h0j : 0 ≤ a j) (hjC : a j ≤ C) :
    0 ≤ aiNew K y C dvd a b i j ∧ aiNew K y C dvd a b i j ≤ C := by
  have hLa := alpha_between_bounds y C a i j h0i hiC h0j hjC
  have hbetween := ajNew_between K y C dvd a b i j (le_trans hLa.1 hLa.2)
  unfold aiNew
  by_cases hyy : y i = y j
  · have hprod : y i * y j = 1 := by
      rw [hyy]
      rcases hyj with h | h <;> rw [h] <;> norm_num
    have hlow : a j + a i - C ≤ ajNew K y C dvd a b i j := by
      refine le_trans ?_ hbetween.1
      unfold lowOf
      rw [if_pos hyy]
      exact le_max_right 0 _
    have hhigh : ajNew K y C dvd a b i j ≤ a j + a i := by
      refine le_trans hbetween.2 ?_
      unfold highOf
      rw [if_pos hyy]
      exact min_le_right C _
    rw [hprod]
    constructor <;> linarith
  · have hprod : y i * y j = -1 := by
      rcases hyi with h | h <;> rcases hyj with h2 | h2
      · exact absurd (by rw [h, h2]) hyy
      · rw [h, h2]; norm_num
      · rw [h, h2]; norm_num
      · exact absurd (by rw [h, h2]) hyy
    have hlow : a j - a i ≤ ajNew K y C dvd a b i j := by
      refine le_trans ?_ hbetween.1
      unfold lowOf
      rw [if_neg hyy]
      exact le_max_right 0 _
    have hhigh : ajNew K y C dvd a b i j ≤ C + a j - a i := by
      refine le_trans hbetween.2 ?_
      unfold highOf
      rw [if_neg hyy]
      exact min_le_right C _
    rw [hprod]
    constructor <;> linarith

/-- Auxiliary: one inner-loop step preserves the box invariant. -/
lemma doIndexD_box {n : ℕ} (K : Fin n → Fin n → ℚ) (y : Fin n → ℚ) (C tol : ℚ)
    (oracle : ℕ → Fin n → Fin n) (dvd : ℚ → ℚ → ℚ)
    (hy : ∀ k, y k = 1 ∨ y k = -1) (s : SMOState n) (i : Fin n)
    (hbox : inBox C s.alpha) :
    inBox C (doIndexD K y C tol oracle dvd s i).alpha := by
  unfold doIndexD
  split_ifs with h1 h2 h3 h4
  · exact hbox
  · exact hbox
  · exact hbox
  · intro k
    simp only [Function.update_apply]
    by_cases hk : k = i
    · rw [if_pos hk]
      exact aiNew_box K y C dvd s.alpha s.b i (oracle s.t i) (hy i)
        (hy (oracle s.t i)) (hbox i).1 (hbox i).2 (hbox (oracle s.t i)).1
        (hbox (oracle s.t i)).2
    · rw [if_neg hk]
      by_cases hkj : k = oracle s.t i
      · rw [if_pos hkj]
        have hLa := alpha_between_bounds y C s.alpha i (oracle s.t i)
          (hbox i).1 (hbox i).2 (hbox (oracle s.t i)).1 (hbox (oracle s.t i)).2
        have hbetween := ajNew_between K y C dvd s.alpha s.b i (oracle s.t i)
          (le_trans hLa.1 hLa.2)
        exact ⟨le_trans (lowOf_nonneg y C s.alpha i (oracle s.t i)) hbetween.1,
          le_trans hbetween.2 (highOf_le_C y C s.alpha i (oracle s.t i))⟩
      · rw [if_neg hkj]
        exact hbox k
  · exact hbox

/-- Auxiliary: the inner-loop fold over any index list preserves the box. -/
lemma foldl_doIndexD_box {n : ℕ} (K : Fin n → Fin n → ℚ) (y : Fin n → ℚ)
    (C tol : ℚ) (oracle : ℕ → Fin n → Fin n) (dvd : ℚ → ℚ → ℚ)
    (hy : ∀ k, y k = 1 ∨ y k = -1) :
    ∀ (l : List (Fin n)) (s : SMOState n), inBox C s.alpha →
      inBox C (l.foldl (doIndexD K y C tol oracle dvd) s).alpha := by
  intro l
  induction l with
  | nil => intro s hs; exact hs
  | cons i l ih =>
    intro s hs
    rw [List.foldl_cons]
    exact ih _ (doIndexD_box K y C tol oracle dvd hy s i hs)

/-- Auxiliary: one outer-loop iteration preserves the box. -/
lemma outerStep_box {n : ℕ} (K : Fin n → Fin n → ℚ) (y : Fin n → ℚ)
    (C tol : ℚ) (maxIter : ℕ) (oracle : ℕ → Fin n → Fin n) (dvd : ℚ → ℚ → ℚ)
    (hy : ∀ k, y k = 1 ∨ y k = -1)
    (s : SMOState n) (hbox : inBox C s.alpha) :
    inBox C (outerStep K y C tol maxIter oracle dvd s).alpha := by
  have hbox2 : inBox C (doPass K y C tol oracle dvd s).alpha := by
    unfold doPass
    exact foldl_doIndexD_box K y C tol oracle dvd hy _ _ hbox
  unfold outerStep
  split_ifs with h1 h2
  · exact hbox
  · exact hbox2
  · exact hbox2

/-- Auxiliary: every state of the training loop satisfies the box invariant. -/
lemma trainLoop_box {n : ℕ} (K : Fin n → Fin n → ℚ) (y : Fin n → ℚ)
    (C tol : ℚ) (maxIter : ℕ) (oracle : ℕ → Fin n → Fin n) (dvd : ℚ → ℚ → ℚ)
    (hy : ∀ k, y k = 1 ∨ y k = -1) (hC : 0 ≤ C)
    (fuel : ℕ) :
    inBox C (trainLoop K y C tol maxIter oracle dvd fuel).alpha := by
  induction fuel with
  | zero =>
    intro i
    exact ⟨le_refl 0, hC⟩
  | succ fuel ih =>
    unfold trainLoop at ih ⊢
    rw [Function.iterate_succ_apply']
    exact outerStep_box K y C tol maxIter oracle dvd hy _ ih

/-- C1: the dual coefficients of every trained model lie in `[0, C]`, and a
single SMO update step (the clip of `alpha(j)` to `[L, H]` followed by the
compensating update of `alpha(i)`) preserves this bound for any state
satisfying it. -/
theorem claim_c1_alpha_bounds {α : Type} {n : ℕ} (kernel : α → α → ℚ)
    (data : Fin n → α) (labels : Fin n → ℕ) (C tol : ℚ) (maxIter : ℕ)
    (oracle : ℕ → Fin n → Fin n) (fuel : ℕ) (hC : 0 ≤ C) :
    (∀ (dvd : ℚ → ℚ → ℚ) (s : SMOState n) (i : Fin n), inBox C s.alpha →
      inBox C (doIndexD (kernelMatrix kernel data) (trainLabels labels) C tol
        oracle dvd s i).alpha) ∧
    (∀ i, 0 ≤ (Train kernel data labels C tol maxIter oracle fuel).alpha i ∧
      (Train kernel data labels C tol maxIter oracle fuel).alpha i ≤ C) := by
  constructor
  · intro dvd s i hbox
    exact doIndexD_box _ _ C tol oracle dvd (trainLabels_pm labels) s i hbox
  · exact trainLoop_box _ _ C tol maxIter oracle _ (trainLabels_pm labels) hC fuel

/-- C1 witness: the bound statement at a concrete two-point dataset with the
product kernel, `C = 1`, and one unit of fuel. -/
theorem claim_c1_witness :
    0 ≤ (Train (fun a b : ℚ => a * b) (![1, 2] : Fin 2 → ℚ) ![0, 1] 1 1 1
        (fun _ i => if i = 0 then (1 : Fin 2) else 0) 1).alpha 0 ∧
    (Train (fun a b : ℚ => a * b) (![1, 2] : Fin 2 → ℚ) ![0, 1] 1 1 1
        (fun _ i => if i = 0 then (1 : Fin 2) else 0) 1).alpha 0 ≤ 1 :=
  (claim_c1_alpha_bounds (fun a b : ℚ => a * b) ![1, 2] ![0, 1] 1 1 1
    (fun _ i => if i = 0 then (1 : Fin 2) else 0) 1 (by norm_num)).2 0

/-- Auxiliary: the delta function sums to one. -/
lemma sum_dta {n : ℕ} (i : Fin n) : (∑ k, dta i k) = 1 := by
  unfold dta
  rw [Finset.sum_ite_eq' Finset.univ i (fun _ => (1 : ℚ))]
  simp

/-- Auxiliary: summing a function against the delta on the left. -/
lemma sum_dta_mul {n : ℕ} (i : Fin n) (f : Fin n → ℚ) :
    (∑ k, dta i k * f k) = f i := by
  unfold dta
  simp only [ite_mul, one_mul, zero_mul]
  rw [Finset.sum_ite_eq' Finset.univ i f]
  simp

/-- Auxiliary: summing a function against the delta on the right. -/
lemma sum_mul_dta {n : ℕ} (j : Fin n) (f : Fin n → ℚ) :
    (∑ l, f l * dta j l) = f j := by
  unfold dta
  simp only [mul_ite, mul_one, mul_zero]
  rw [Finset.sum_ite_eq' Finset.univ j f]
  simp

/-- Auxiliary: a two-coordinate update written as an additive perturbation. -/
lemma update2_as_add {n : ℕ} (a : Fin n → ℚ) (i j : Fin n) (hij : i ≠ j)
    (u v : ℚ) :
    Function.update (Function.update a j (a j + v)) i (a i + u)
      = fun k => a k + u * dta i k + v * dta j k := by
  funext k
  simp only [Function.update_apply, dta]
  by_cases hki : k = i
  · subst hki
    simp [hij]
  · by_cases hkj : k = j
    · subst hkj
      simp [hki]
    · simp [hki, hkj]

/-- Auxiliary: scaling an additively perturbed vector by the labels. -/
lemma scaled_update {n : ℕ} (a y : Fin n → ℚ) (i j : Fin n) (u v : ℚ) :
    (fun k => (a k + u * dta i k + v * dta j k) * y k)
      = fun k => (a k * y k) + (u * y i) * dta i k + (v * y j) * dta j k := by
  funext k
  unfold dta
  by_cases hki : k = i
  · subst hki
    by_cases hkj : k = j
    · subst hkj
      simp
      ring
    · simp [hkj]
      ring
  · by_cases hkj : k = j
    · subst hkj
      simp [hki]
      ring
    · simp [hki, hkj]

/-- Auxiliary: expansion of the bilinear form at a two-coordinate additive
perturbation. -/
lemma qf_update2 {n : ℕ} (K : Fin n → Fin n → ℚ) (g : Fin n → ℚ) (i j : Fin n)
    (u v : ℚ) :
    qf K (fun k => g k + u * dta i k + v * dta j k)
      (fun k => g k + u * dta i k + v * dta j k)
      = qf K g g
        + u * (∑ l, g l * K i l) + v * (∑ l, g l * K j l)
        + u * (∑ k, g k * K k i) + v * (∑ k, g k * K k j)
        + u * u * K i i + u * v * K i j + v * u * K j i + v * v * K j j := by
  unfold qf
  have hpt : ∀ k l,
      (g k + u * dta i k + v * dta j k) * (g l + u * dta i l + v * dta j l) * K k l
      = g k * g l * K k l
        + u * (dta i k * (g l * K k l))
        + v * (dta j k * (g l * K k l))
        + u * ((g k * K k l) * dta i l)
        + v * ((g k * K k l) * dta j l)
        + u * u * (dta i k * (dta i l * K k l))
        + u * v * (dta i k * (dta j l * K k l))
        + v * u * (dta j k * (dta i l * K k l))
        + v * v * (dta j k * (dta j l * K k l)) := by
    intro k l
    ring
  rw [Finset.sum_congr rfl (fun k _ => Finset.sum_congr rfl (fun l _ => hpt k l))]
  simp only [Finset.sum_add_distrib]
  have e2 : (∑ k, ∑ l, u * (dta i k * (g l * K k l))) = u * (∑ l, g l * K i l) := by
    have h1 : ∀ k : Fin n, (∑ l, u * (dta i k * (g l * K k l)))
        = u * (dta i k * (∑ l, g l * K k l)) := by
      intro k
      rw [← Finset.mul_sum, ← Finset.mul_sum]
    rw [Finset.sum_congr rfl (fun k _ => h1 k), ← Finset.mul_sum,
      sum_dta_mul i (fun k => ∑ l, g l * K k l)]
  have e3 : (∑ k, ∑ l, v * (dta j k * (g l * K k l))) = v * (∑ l, g l * K j l) := by
    have h1 : ∀ k : Fin n, (∑ l, v * (dta j k * (g l * K k l)))
        = v * (dta j k * (∑ l, g l * K k l)) := by
      intro k
      rw [← Finset.mul_sum, ← Finset.mul_sum]
    rw [Finset.sum_congr rfl (fun k _ => h1 k), ← Finset.mul_sum,
      sum_dta_mul j (fun k => ∑ l, g l * K k l)]
  have e4 : (∑ k, ∑ l, u * ((g k * K k l) * dta i l)) = u * (∑ k, g k * K k i) := by
    have h1 : ∀ k : Fin n, (∑ l, u * ((g k * K k l) * dta i l))
        = u * (g k * K k i) := by
      intro k
      rw [← Finset.mul_sum, sum_mul_dta i (fun l => g k * K k l)]
    rw [Finset.sum_congr rfl (fun k _ => h1 k), ← Finset.mul_sum]
  have e5 : (∑ k, ∑ l, v * ((g k * K k l) * dta j l)) = v * (∑ k, g k * K k j) := by
    have h1 : ∀ k : Fin n, (∑ l, v * ((g k * K k l) * dta j l))
        = v * (g k * K k j) := by
      intro k
      rw [← Finset.mul_sum, sum_mul_dta j (fun l => g k * K k l)]
    rw [Finset.sum_congr rfl (fun k _ => h1 k), ← Finset.mul_sum]
  have e6 : (∑ k, ∑ l, u * u * (dta i k * (dta i l * K k l))) = u * u * K i i := by
    have h1 : ∀ k : Fin n, (∑ l, u * u * (dta i k * (dta i l * K k l)))
        = u * u * (dta i k * K k i) := by
      intro k
      rw [← Finset.mul_sum, ← Finset.mul_sum, sum_dta_mul i (fun l => K k l)]
    rw [Finset.sum_congr rfl (fun k _ => h1 k), ← Finset.mul_sum,
      sum_dta_mul i (fun k => K k i)]
  have e7 : (∑ k, ∑ l, u * v * (dta i k * (dta j l * K k l))) = u * v * K i j := by
    have h1 : ∀ k : Fin n, (∑ l, u * v * (dta i k * (dta j l * K k l)))
        = u * v * (dta i k * K k j) := by
      intro k
      rw [← Finset.mul_sum, ← Finset.mul_sum, sum_dta_mul j (fun l => K k l)]
    rw [Finset.sum_congr rfl (fun k _ => h1 k), ← Finset.mul_sum,
      sum_dta_mul i (fun k => K k j)]
  have e8 : (∑ k, ∑ l, v * u * (dta j k * (dta i l * K k l))) = v * u * K j i := by
    have h1 : ∀ k : Fin n, (∑ l, v * u * (dta j k * (dta i l * K k l)))
        = v * u * (dta j k * K k i) := by
      intro k
      rw [← Finset.mul_sum, ← Finset.mul_sum, sum_dta_mul i (fun l => K k l)]
    rw [Finset.sum_congr rfl (fun k _ => h1 k), ← Finset.mul_sum,
      sum_dta_mul j (fun k => K k i)]
  have e9 : (∑ k, ∑ l, v * v * (dta j k * (dta j l * K k l))) = v * v * K j j := by
    have h1 : ∀ k : Fin n, (∑ l, v * v * (dta j k * (dta j l * K k l)))
        = v * v * (dta j k * K k j) := by
      intro k
      rw [← Finset.mul_sum, ← Finset.mul_sum, sum_dta_mul j (fun l => K k l)]
    rw [Finset.sum_congr rfl (fun k _ => h1 k), ← Finset.mul_sum,
      sum_dta_mul j (fun k => K k j)]
  rw [e2, e3, e4, e5, e6, e7, e8, e9]

/-- Auxiliary: the dual objective written through the bilinear form. -/
lemma dualW_as_qf {n : ℕ} (K : Fin n → Fin n → ℚ) (y : Fin n → ℚ)
    (a : Fin n → ℚ) :
    dualW K y a
      = (∑ k, a k) - qf K (fun k => a k * y k) (fun k => a k * y k) / 2 := rfl

/-- Auxiliary: exact change of the dual objective under one pair update
moving `alpha(j)` by `d` and `alpha(i)` by `-y(i) y(j) d`. -/
lemma dualW_update_eq {n : ℕ} (K : Fin n → Fin n → ℚ) (y : Fin n → ℚ)
    (hK : ∀ k l, K k l = K l k) (a : Fin n → ℚ) (i j : Fin n) (hij : i ≠ j)
    (hyi : y i = 1 ∨ y i = -1) (hyj : y j = 1 ∨ y j = -1) (d : ℚ) :
    dualW K y (Function.update (Function.update a j (a j + d)) i
        (a i + -(y i * y j * d)))
      = dualW K y a + y j * d * (Fsum K y a i - Fsum K y a j)
        + d * (1 - y i * y j) + etaOf K i j / 2 * d ^ 2 := by
  rw [update2_as_add a i j hij (-(y i * y j * d)) d]
  simp only [dualW_as_qf]
  rw [scaled_update a y i j (-(y i * y j * d)) d]
  rw [qf_update2 K (fun k => a k * y k) i j (-(y i * y j * d) * y i) (d * y j)]
  have hlin : (∑ k, (a k + -(y i * y j * d) * dta i k + d * dta j k))
      = (∑ k, a k) + -(y i * y j * d) + d := by
    simp only [Finset.sum_add_distrib]
    rw [← Finset.mul_sum, ← Finset.mul_sum, sum_dta, sum_dta]
    ring
  rw [hlin]
  have hrow_i : (∑ l, a l * y l * K i l) = ∑ l, a l * y l * K l i :=
    Finset.sum_congr rfl (fun l _ => by rw [hK i l])
  have hrow_j : (∑ l, a l * y l * K j l) = ∑ l, a l * y l * K l j :=
    Finset.sum_congr rfl (fun l _ => by rw [hK j l])
  rw [hrow_i, hrow_j, hK j i]
  unfold Fsum etaOf
  rcases hyi with h1 | h1 <;> rcases hyj with h2 | h2 <;> rw [h1, h2] <;> ring

/-- Auxiliary: clipping toward the unconstrained target from a feasible point
never overshoots: the clipped move `d` satisfies `d^2 ≤ u d` where `u` is the
unclipped move. -/
lemma clamp_quad (L H aj u : ℚ) (h1 : L ≤ aj) (h2 : aj ≤ H) :
    (max L (min H (aj + u)) - aj) ^ 2 ≤ u * (max L (min H (aj + u)) - aj) := by
  rcases le_total (aj + u) H with hH | hH
  · rw [min_eq_right hH]
    rcases le_total L (aj + u) with hL | hL
    · rw [max_eq_right hL]
      have h3 : aj + u - aj = u := by ring
      rw [h3]
      exact le_of_eq (by ring)
    · rw [max_eq_left hL]
      nlinarith [mul_nonneg (sub_nonneg.mpr h1)
        (sub_nonneg.mpr (by linarith : u ≤ L - aj))]
  · rw [min_eq_left hH]
    rw [max_eq_right (le_trans h1 h2)]
    nlinarith [mul_nonneg (sub_nonneg.mpr h2)
      (sub_nonneg.mpr (by linarith : H - aj ≤ u))]

/-- Auxiliary: `epsMin` is positive. -/
lemma epsMin_pos {n : ℕ} (K : Fin n → Fin n → ℚ) : 0 < epsMin K := by
  unfold epsMin
  have hmem := Finset.min'_mem
    (((Finset.univ : Finset (Fin n × Fin n)).image
        (fun p => if etaOf K p.1 p.2 < 0 then -(etaOf K p.1 p.2) else 1)) ∪ {1})
    ⟨1, by simp⟩
  rcases Finset.mem_union.mp hmem with h | h
  · obtain ⟨p, _, hp⟩ := Finset.mem_image.mp h
    rw [← hp]
    split_ifs with h0
    · linarith
    · norm_num
  · rw [Finset.mem_singleton.mp h]
    norm_num

/-- Auxiliary: `epsMin` bounds `-eta` from below at any negative-curvature
pair. -/
lemma epsMin_le {n : ℕ} (K : Fin n → Fin n → ℚ) (i j : Fin n)
    (h : etaOf K i j < 0) : epsMin K ≤ -(etaOf K i j) := by
  unfold epsMin
  apply Finset.min'_le
  apply Finset.mem_union_left
  rw [Finset.mem_image]
  refine ⟨(i, j), Finset.mem_univ _, ?_⟩
  simp only
  rw [if_pos h]

/-- Auxiliary: the minimal per-step gain is positive when `tol` is. -/
lemma gainMin_pos {n : ℕ} (K : Fin n → Fin n → ℚ) (tol : ℚ) (htol : 0 < tol) :
    0 < gainMin K tol := by
  unfold gainMin
  have h1 := epsMin_pos K
  have h2 : (0 : ℚ) < tol ^ 2 := pow_pos htol 2
  positivity

/-- Auxiliary: an accepted pair update increases the dual objective by at
least `gainMin`. -/
lemma accepted_gain {n : ℕ} (K : Fin n → Fin n → ℚ) (y : Fin n → ℚ)
    (C tol : ℚ) (a : Fin n → ℚ) (b : ℚ) (i j : Fin n)
    (hK : ∀ k l, K k l = K l k) (hyi : y i = 1 ∨ y i = -1)
    (hyj : y j = 1 ∨ y j = -1) (hij : i ≠ j) (htol : 0 < tol)
    (h0i : 0 ≤ a i) (hiC : a i ≤ C) (h0j : 0 ≤ a j) (hjC : a j ≤ C)
    (heta : etaOf K i j < 0)
    (hd : tol ≤ |ajNew K y C (· / ·) a b i j - a j|) :
    dualW K y a + gainMin K tol ≤
      dualW K y (Function.update
        (Function.update a j (ajNew K y C (· / ·) a b i j))
        i (aiNew K y C (· / ·) a b i j)) := by
  set d := ajNew K y C (· / ·) a b i j - a j with hdd
  have hupd : Function.update
      (Function.update a j (ajNew K y C (· / ·) a b i j))
      i (aiNew K y C (· / ·) a b i j)
      = Function.update (Function.update a j (a j + d)) i
        (a i + -(y i * y j * d)) := by
    have hv1 : ajNew K y C (· / ·) a b i j = a j + d := by rw [hdd]; ring
    have hv2 : aiNew K y C (· / ·) a b i j = a i + -(y i * y j * d) := by
      unfold aiNew
      rw [hdd]
      ring
    rw [hv1, hv2]
  rw [hupd, dualW_update_eq K y hK a i j hij hyi hyj d]
  have hyj2 : y j * y j = 1 := by
    rcases hyj with h | h <;> rw [h] <;> norm_num
  have hne : etaOf K i j ≠ 0 := ne_of_lt heta
  set u := ajCand K y (· / ·) a b i j - a j with hu0
  have hcand : ajCand K y (· / ·) a b i j
      = a j - (y j * (errAt K y a b i - errAt K y a b j)) / etaOf K i j := rfl
  have hu : u * etaOf K i j
      = -(y j * (errAt K y a b i - errAt K y a b j)) := by
    rw [hu0, hcand]
    have h5 : (a j - y j * (errAt K y a b i - errAt K y a b j) / etaOf K i j - a j)
        * etaOf K i j
        = -(y j * (errAt K y a b i - errAt K y a b j) / etaOf K i j * etaOf K i j) := by
      ring
    rw [h5, div_mul_cancel₀ _ hne]
  have herr_i : errAt K y a b i = b + Fsum K y a i - y i := rfl
  have herr_j : errAt K y a b j = b + Fsum K y a j - y j := rfl
  have hcu2 : y j * ((b + Fsum K y a i - y i) - (b + Fsum K y a j - y j))
      = -(u * etaOf K i j) := by
    rw [← herr_i, ← herr_j, hu, neg_neg]
  have hsum : y j * d * (Fsum K y a i - Fsum K y a j) + d * (1 - y i * y j)
      + etaOf K i j / 2 * d ^ 2
      = (-(etaOf K i j)) * (u * d - d ^ 2 / 2) := by
    linear_combination d * hcu2 + (-d) * hyj2
  have hLa := alpha_between_bounds y C a i j h0i hiC h0j hjC
  have haju : ajCand K y (· / ·) a b i j = a j + u := by
    rw [hu0]
    ring
  have hclamp := clamp_quad (lowOf y C a i j) (highOf y C a i j) (a j) u
    hLa.1 hLa.2
  rw [← haju] at hclamp
  have hajn : ajNew K y C (· / ·) a b i j
      = max (lowOf y C a i j)
          (min (highOf y C a i j) (ajCand K y (· / ·) a b i j)) := rfl
  rw [← hajn, ← hdd] at hclamp
  clear_value d u
  have htol2 : tol ^ 2 ≤ d ^ 2 := by
    have h6 := pow_le_pow_left₀ (le_of_lt htol) hd 2
    rwa [sq_abs] at h6
  have hquad : tol ^ 2 / 2 ≤ u * d - d ^ 2 / 2 := by linarith
  have hmul : epsMin K * (tol ^ 2 / 2) ≤ (-(etaOf K i j)) * (u * d - d ^ 2 / 2) :=
    mul_le_mul (epsMin_le K i j heta) hquad (by positivity) (by linarith)
  have hgm : gainMin K tol = epsMin K * (tol ^ 2 / 2) := by
    unfold gainMin
    ring
  linarith

/-- Auxiliary: one inner-loop step either leaves the coefficients and the
change counter alone, or increments the counter and increases the dual
objective by at least `gainMin`. -/
lemma doIndexD_dualW {n : ℕ} (K : Fin n → Fin n → ℚ) (y : Fin n → ℚ)
    (C tol : ℚ) (oracle : ℕ → Fin n → Fin n)
    (hK : ∀ k l, K k l = K l k) (hy : ∀ k, y k = 1 ∨ y k = -1) (htol : 0 < tol)
    (s : SMOState n) (i : Fin n) (hor : oracle s.t i ≠ i)
    (hbox : inBox C s.alpha) :
    ((doIndexD K y C tol oracle (· / ·) s i).alpha = s.alpha ∧
      (doIndexD K y C tol oracle (· / ·) s i).changed = s.changed) ∨
    ((doIndexD K y C tol oracle (· / ·) s i).changed = s.changed + 1 ∧
      dualW K y s.alpha + gainMin K tol ≤
        dualW K y (doIndexD K y C tol oracle (· / ·) s i).alpha) := by
  unfold doIndexD
  split_ifs with h1 h2 h3 h4
  · exact Or.inl ⟨rfl, rfl⟩
  · exact Or.inl ⟨rfl, rfl⟩
  · exact Or.inl ⟨rfl, rfl⟩
  · refine Or.inr ⟨rfl, ?_⟩
    exact accepted_gain K y C tol s.alpha s.b i (oracle s.t i) hK (hy i)
      (hy (oracle s.t i)) (Ne.symm hor) htol (hbox i).1 (hbox i).2
      (hbox (oracle s.t i)).1 (hbox (oracle s.t i)).2 (not_le.mp h3)
      (not_lt.mp h4)
  · exact Or.inl ⟨rfl, rfl⟩

/-- Auxiliary: unfolding one outer iteration of the training loop. -/
lemma trainLoop_succ {n : ℕ} (K : Fin n → Fin n → ℚ) (y : Fin n → ℚ)
    (C tol : ℚ) (maxIter : ℕ) (oracle : ℕ → Fin n → Fin n) (dvd : ℚ → ℚ → ℚ)
    (fuel : ℕ) :
    trainLoop K y C tol maxIter oracle dvd (fuel + 1)
      = outerStep K y C tol maxIter oracle dvd
          (trainLoop K y C tol maxIter oracle dvd fuel) := by
  unfold trainLoop
  rw [Function.iterate_succ_apply']

/-- Auxiliary: a terminal state is a fixed point of the outer loop. -/
lemma outerStep_terminal {n : ℕ} (K : Fin n → Fin n → ℚ) (y : Fin n → ℚ)
    (C tol : ℚ) (maxIter : ℕ) (oracle : ℕ → Fin n → Fin n) (dvd : ℚ → ℚ → ℚ)
    (s : SMOState n) (h : maxIter ≤ s.count) :
    outerStep K y C tol maxIter oracle dvd s = s := by
  unfold outerStep
  rw [if_pos h]

/-- Auxiliary: the inner step does not touch the pass counter. -/
lemma doIndexD_count {n : ℕ} (K : Fin n → Fin n → ℚ) (y : Fin n → ℚ)
    (C tol : ℚ) (oracle : ℕ → Fin n → Fin n) (dvd : ℚ → ℚ → ℚ)
    (s : SMOState n) (i : Fin n) :
    (doIndexD K y C tol oracle dvd s i).count = s.count := by
  unfold doIndexD
  split_ifs <;> rfl

/-- Auxiliary: a pass does not touch the pass counter. -/
lemma doPass_count {n : ℕ} (K : Fin n → Fin n → ℚ) (y : Fin n → ℚ)
    (C tol : ℚ) (oracle : ℕ → Fin n → Fin n) (dvd : ℚ → ℚ → ℚ) :
    ∀ (l : List (Fin n)) (s : SMOState n),
      (l.foldl (doIndexD K y C tol oracle dvd) s).count = s.count := by
  intro l
  induction l with
  | nil => intro s; rfl
  | cons i l ih =>
    intro s
    rw [List.foldl_cons, ih, doIndexD_count]

/-- Auxiliary: the inner step consumes at most one pair-evaluation attempt. -/
lemma doIndexD_t_le {n : ℕ} (K : Fin n → Fin n → ℚ) (y : Fin n → ℚ)
    (C tol : ℚ) (oracle : ℕ → Fin n → Fin n) (dvd : ℚ → ℚ → ℚ)
    (s : SMOState n) (i : Fin n) :
    (doIndexD K y C tol oracle dvd s i).t ≤ s.t + 1 := by
  unfold doIndexD
  split_ifs <;> simp

/-- Auxiliary: a fold of inner steps consumes at most one attempt per index. -/
lemma foldl_t_le {n : ℕ} (K : Fin n → Fin n → ℚ) (y : Fin n → ℚ)
    (C tol : ℚ) (oracle : ℕ → Fin n → Fin n) (dvd : ℚ → ℚ → ℚ) :
    ∀ (l : List (Fin n)) (s : SMOState n),
      (l.foldl (doIndexD K y C tol oracle dvd) s).t ≤ s.t + l.length := by
  intro l
  induction l with
  | nil => intro s; simp
  | cons i l ih =>
    intro s
    rw [List.foldl_cons]
    have h1 := ih (doIndexD K y C tol oracle dvd s i)
    have h2 := doIndexD_t_le K y C tol oracle dvd s i
    simp only [List.length_cons]
    omega

/-- Auxiliary: one outer iteration consumes at most `n` attempts. -/
lemma outerStep_t_le {n : ℕ} (K : Fin n → Fin n → ℚ) (y : Fin n → ℚ)
    (C tol : ℚ) (maxIter : ℕ) (oracle : ℕ → Fin n → Fin n) (dvd : ℚ → ℚ → ℚ)
    (s : SMOState n) :
    (outerStep K y C tol maxIter oracle dvd s).t ≤ s.t + n := by
  have hp : (doPass K y C tol oracle dvd s).t ≤ s.t + n := by
    unfold doPass
    have := foldl_t_le K y C tol oracle dvd (List.finRange n) { s with changed := 0 }
    simpa using this
  unfold outerStep
  split_ifs with h1 h2
  · omega
  · exact hp
  · exact hp

/-- Auxiliary: the attempt counter after `fuel` outer iterations is at most
`n * fuel`. -/
lemma trainLoop_t_le {n : ℕ} (K : Fin n → Fin n → ℚ) (y : Fin n → ℚ)
    (C tol : ℚ) (maxIter : ℕ) (oracle : ℕ → Fin n → Fin n) (dvd : ℚ → ℚ → ℚ)
    (fuel : ℕ) :
    (trainLoop K y C tol maxIter oracle dvd fuel).t ≤ n * fuel := by
  induction fuel with
  | zero => exact Nat.le_refl 0
  | succ fuel ih =>
    rw [trainLoop_succ]
    have := outerStep_t_le K y C tol maxIter oracle dvd
      (trainLoop K y C tol maxIter oracle dvd fuel)
    have hmul : n * (fuel + 1) = n * fuel + n := by ring
    omega

/-- Auxiliary: the stall counter never exceeds `maxIter`. -/
lemma outerStep_count_le {n : ℕ} (K : Fin n → Fin n → ℚ) (y : Fin n → ℚ)
    (C tol : ℚ) (maxIter : ℕ) (oracle : ℕ → Fin n → Fin n) (dvd : ℚ → ℚ → ℚ)
    (s : SMOState n) (h : s.count ≤ maxIter) :
    (outerStep K y C tol maxIter oracle dvd s).count ≤ maxIter := by
  unfold outerStep
  split_ifs with h1 h2
  · exact h
  · show (doPass K y C tol oracle dvd s).count + 1 ≤ maxIter
    unfold doPass
    rw [doPass_count]
    show s.count + 1 ≤ maxIter
    omega
  · exact Nat.zero_le maxIter

/-- Auxiliary: the stall counter through the whole loop never exceeds
`maxIter`. -/
lemma trainLoop_count_le {n : ℕ} (K : Fin n → Fin n → ℚ) (y : Fin n → ℚ)
    (C tol : ℚ) (maxIter : ℕ) (oracle : ℕ → Fin n → Fin n) (dvd : ℚ → ℚ → ℚ)
    (fuel : ℕ) :
    (trainLoop K y C tol maxIter oracle dvd fuel).count ≤ maxIter := by
  induction fuel with
  | zero => exact Nat.zero_le maxIter
  | succ fuel ih =>
    rw [trainLoop_succ]
    exact outerStep_count_le K y C tol maxIter oracle dvd _ ih

/-- Auxiliary: once terminal, the loop is frozen. -/
lemma trainLoop_absorb {n : ℕ} (K : Fin n → Fin n → ℚ) (y : Fin n → ℚ)
    (C tol : ℚ) (maxIter : ℕ) (oracle : ℕ → Fin n → Fin n) (dvd : ℚ → ℚ → ℚ)
    (B : ℕ) (hB : maxIter ≤ (trainLoop K y C tol maxIter oracle dvd B).count) :
    ∀ u, trainLoop K y C tol maxIter oracle dvd (B + u)
      = trainLoop K y C tol maxIter oracle dvd B := by
  intro u
  induction u with
  | zero => rfl
  | succ u ih =>
    have hidx : B + (u + 1) = (B + u) + 1 := rfl
    rw [hidx, trainLoop_succ, ih]
    exact outerStep_terminal K y C tol maxIter oracle dvd _ hB

/-- Auxiliary: the dual objective of the initial state is zero. -/
lemma dualW_init {n : ℕ} (K : Fin n → Fin n → ℚ) (y : Fin n → ℚ) :
    dualW K y (initState n).alpha = 0 := by
  unfold dualW initState
  simp

/-- Auxiliary: on the box, the dual objective is bounded by `Mbound`. -/
lemma dualW_le_Mbound {n : ℕ} (K : Fin n → Fin n → ℚ) (y : Fin n → ℚ) (C : ℚ)
    (a : Fin n → ℚ) (hbox : inBox C a) :
    dualW K y a ≤ Mbound K y C := by
  unfold dualW Mbound
  have hlin : (∑ k, a k) ≤ (n : ℚ) * C := by
    calc (∑ k, a k) ≤ ∑ _k : Fin n, C := Finset.sum_le_sum (fun k _ => (hbox k).2)
    _ = (n : ℚ) * C := by
      rw [Finset.sum_const, Finset.card_univ, Fintype.card_fin]
      simp [nsmul_eq_mul]
  have habs : |∑ k, ∑ l, a k * y k * (a l * y l) * K k l|
      ≤ ∑ k, ∑ l, C ^ 2 * |y k * y l * K k l| := by
    calc |∑ k, ∑ l, a k * y k * (a l * y l) * K k l|
        ≤ ∑ k, |∑ l, a k * y k * (a l * y l) * K k l| :=
          Finset.abs_sum_le_sum_abs _ _
    _ ≤ ∑ k, ∑ l, |a k * y k * (a l * y l) * K k l| :=
          Finset.sum_le_sum (fun k _ => Finset.abs_sum_le_sum_abs _ _)
    _ ≤ ∑ k, ∑ l, C ^ 2 * |y k * y l * K k l| := by
          apply Finset.sum_le_sum
          intro k _
          apply Finset.sum_le_sum
          intro l _
          have h1 : a k * y k * (a l * y l) * K k l
              = (a k * a l) * (y k * y l * K k l) := by ring
          rw [h1, abs_mul]
          have h2 : |a k * a l| = a k * a l :=
            abs_of_nonneg (mul_nonneg (hbox k).1 (hbox l).1)
          rw [h2]
          have h3 : a k * a l ≤ C ^ 2 := by
            nlinarith [(hbox k).1, (hbox k).2, (hbox l).1, (hbox l).2]
          exact mul_le_mul_of_nonneg_right h3 (abs_nonneg _)
  have hfac : (∑ k, ∑ l, C ^ 2 * |y k * y l * K k l|)
      = C ^ 2 * (∑ k, ∑ l, |y k * y l * K k l|) := by
    rw [Finset.mul_sum]
    exact Finset.sum_congr rfl (fun k _ => by rw [Finset.mul_sum])
  have hneg : -(∑ k, ∑ l, a k * y k * (a l * y l) * K k l)
      ≤ |∑ k, ∑ l, a k * y k * (a l * y l) * K k l| := by
    have := le_abs_self (-(∑ k, ∑ l, a k * y k * (a l * y l) * K k l))
    rwa [abs_neg] at this
  linarith

/-- Auxiliary: within one inner fold the change count grows by some `m` and
the dual objective grows by at least `gainMin * m`. -/
lemma foldl_dualW {n : ℕ} (K : Fin n → Fin n → ℚ) (y : Fin n → ℚ)
    (C tol : ℚ) (oracle : ℕ → Fin n → Fin n)
    (hK : ∀ k l, K k l = K l k) (hy : ∀ k, y k = 1 ∨ y k = -1) (htol : 0 < tol)
    (hor : ∀ t i, oracle t i ≠ i) :
    ∀ (l : List (Fin n)) (s : SMOState n), inBox C s.alpha →
      ∃ m : ℕ,
        (l.foldl (doIndexD K y C tol oracle (· / ·)) s).changed = s.changed + m ∧
        dualW K y s.alpha + gainMin K tol * (m : ℚ) ≤
          dualW K y (l.foldl (doIndexD K y C tol oracle (· / ·)) s).alpha := by
  intro l
  induction l with
  | nil =>
    intro s _
    exact ⟨0, by simp, by simp⟩
  | cons i l ih =>
    intro s hs
    rw [List.foldl_cons]
    have hbox1 := doIndexD_box K y C tol oracle (· / ·) hy s i hs
    obtain ⟨m, hm1, hm2⟩ := ih (doIndexD K y C tol oracle (· / ·) s i) hbox1
    rcases doIndexD_dualW K y C tol oracle hK hy htol s i (hor s.t i) hs with
      ⟨ha, hc⟩ | ⟨hc, hg⟩
    · refine ⟨m, ?_, ?_⟩
      · rw [hm1, hc]
      · rw [← ha]
        exact hm2
    · refine ⟨m + 1, ?_, ?_⟩
      · rw [hm1, hc]
        omega
      · have hcast : gainMin K tol * ((m + 1 : ℕ) : ℚ)
            = gainMin K tol * (m : ℚ) + gainMin K tol := by
          push_cast
          ring
        rw [hcast]
        linarith

/-- Auxiliary: a full pass grows the dual objective by `gainMin` per change. -/
lemma doPass_dualW {n : ℕ} (K : Fin n → Fin n → ℚ) (y : Fin n → ℚ)
    (C tol : ℚ) (oracle : ℕ → Fin n → Fin n)
    (hK : ∀ k l, K k l = K l k) (hy : ∀ k, y k = 1 ∨ y k = -1) (htol : 0 < tol)
    (hor : ∀ t i, oracle t i ≠ i) (s : SMOState n) (hbox : inBox C s.alpha) :
    ∃ m : ℕ, (doPass K y C tol oracle (· / ·) s).changed = m ∧
      dualW K y s.alpha + gainMin K tol * (m : ℚ) ≤
        dualW K y (doPass K y C tol oracle (· / ·) s).alpha := by
  unfold doPass
  obtain ⟨m, h1, h2⟩ := foldl_dualW K y C tol oracle hK hy htol hor
    (List.finRange n) { s with changed := 0 } hbox
  refine ⟨m, ?_, h2⟩
  rw [h1]
  show 0 + m = m
  omega

/-- Auxiliary: a pass never decreases the dual objective. -/
lemma doPass_dualW_mono {n : ℕ} (K : Fin n → Fin n → ℚ) (y : Fin n → ℚ)
    (C tol : ℚ) (oracle : ℕ → Fin n → Fin n)
    (hK : ∀ k l, K k l = K l k) (hy : ∀ k, y k = 1 ∨ y k = -1) (htol : 0 < tol)
    (hor : ∀ t i, oracle t i ≠ i) (s : SMOState n) (hbox : inBox C s.alpha) :
    dualW K y s.alpha ≤ dualW K y (doPass K y C tol oracle (· / ·) s).alpha := by
  obtain ⟨m, _, h2⟩ := doPass_dualW K y C tol oracle hK hy htol hor s hbox
  have h3 : (0 : ℚ) ≤ gainMin K tol * (m : ℚ) :=
    mul_nonneg (le_of_lt (gainMin_pos K tol htol)) (Nat.cast_nonneg m)
  linarith

/-- Auxiliary: a productive pass gains at least `gainMin`. -/
lemma doPass_dualW_productive {n : ℕ} (K : Fin n → Fin n → ℚ) (y : Fin n → ℚ)
    (C tol : ℚ) (oracle : ℕ → Fin n → Fin n)
    (hK : ∀ k l, K k l = K l k) (hy : ∀ k, y k = 1 ∨ y k = -1) (htol : 0 < tol)
    (hor : ∀ t i, oracle t i ≠ i) (s : SMOState n) (hbox : inBox C s.alpha)
    (hch : (doPass K y C tol oracle (· / ·) s).changed ≠ 0) :
    dualW K y s.alpha + gainMin K tol ≤
      dualW K y (doPass K y C tol oracle (· / ·) s).alpha := by
  obtain ⟨m, h1, h2⟩ := doPass_dualW K y C tol oracle hK hy htol hor s hbox
  have hm : 1 ≤ m := by omega
  have h3 : gainMin K tol * (1 : ℚ) ≤ gainMin K tol * (m : ℚ) := by
    apply mul_le_mul_of_nonneg_left _ (le_of_lt (gainMin_pos K tol htol))
    exact_mod_cast hm
  linarith

/-- Auxiliary: one outer iteration never decreases the dual objective. -/
lemma outerStep_dualW_mono {n : ℕ} (K : Fin n → Fin n → ℚ) (y : Fin n → ℚ)
    (C tol : ℚ) (maxIter : ℕ) (oracle : ℕ → Fin n → Fin n)
    (hK : ∀ k l, K k l = K l k) (hy : ∀ k, y k = 1 ∨ y k = -1) (htol : 0 < tol)
    (hor : ∀ t i, oracle t i ≠ i) (s : SMOState n) (hbox : inBox C s.alpha) :
    dualW K y s.alpha ≤
      dualW K y (outerStep K y C tol maxIter oracle (· / ·) s).alpha := by
  unfold outerStep
  split_ifs with h1 h2
  · exact le_refl _
  · show dualW K y s.alpha ≤ dualW K y (doPass K y C tol oracle (· / ·) s).alpha
    exact doPass_dualW_mono K y C tol oracle hK hy htol hor s hbox
  · show dualW K y s.alpha ≤ dualW K y (doPass K y C tol oracle (· / ·) s).alpha
    exact doPass_dualW_mono K y C tol oracle hK hy htol hor s hbox

/-- Auxiliary: the dual objective is monotone along the training orbit. -/
lemma trainLoop_dualW_mono {n : ℕ} (K : Fin n → Fin n → ℚ) (y : Fin n → ℚ)
    (C tol : ℚ) (maxIter : ℕ) (oracle : ℕ → Fin n → Fin n)
    (hK : ∀ k l, K k l = K l k) (hy : ∀ k, y k = 1 ∨ y k = -1)
    (hC : 0 ≤ C) (htol : 0 < tol) (hor : ∀ t i, oracle t i ≠ i)
    (s t : ℕ) (hst : s ≤ t) :
    dualW K y (trainLoop K y C tol maxIter oracle (· / ·) s).alpha ≤
      dualW K y (trainLoop K y C tol maxIter oracle (· / ·) t).alpha := by
  induction t, hst using Nat.le_induction with
  | base => exact le_refl _
  | succ t _ ih =>
    rw [trainLoop_succ]
    exact le_trans ih (outerStep_dualW_mono K y C tol maxIter oracle hK hy htol
      hor _ (trainLoop_box K y C tol maxIter oracle (· / ·) hy hC t))

/-- Auxiliary: a window of non-terminal unproductive passes makes the stall
counter grow linearly. -/
lemma count_grows {n : ℕ} (K : Fin n → Fin n → ℚ) (y : Fin n → ℚ)
    (C tol : ℚ) (maxIter : ℕ) (oracle : ℕ → Fin n → Fin n) (t0 : ℕ) :
    ∀ w : ℕ,
      (∀ v, v < w →
        ¬ maxIter ≤ (trainLoop K y C tol maxIter oracle (· / ·) (t0 + v)).count ∧
        (doPass K y C tol oracle (· / ·)
          (trainLoop K y C tol maxIter oracle (· / ·) (t0 + v))).changed = 0) →
      (trainLoop K y C tol maxIter oracle (· / ·) (t0 + w)).count
        = (trainLoop K y C tol maxIter oracle (· / ·) t0).count + w := by
  intro w
  induction w with
  | zero => intro _; rfl
  | succ w ih =>
    intro h
    have hprev := ih (fun v hv => h v (by omega))
    obtain ⟨hnt, hch⟩ := h w (by omega)
    have hc1 : (trainLoop K y C tol maxIter oracle (· / ·) ((t0 + w) + 1)).count
        = (trainLoop K y C tol maxIter oracle (· / ·) (t0 + w)).count + 1 := by
      rw [trainLoop_succ]
      unfold outerStep
      rw [if_neg hnt, if_pos hch]
      show (doPass K y C tol oracle (· / ·)
        (trainLoop K y C tol maxIter oracle (· / ·) (t0 + w))).count + 1 = _
      unfold doPass
      rw [doPass_count]
    show (trainLoop K y C tol maxIter oracle (· / ·) ((t0 + w) + 1)).count
      = (trainLoop K y C tol maxIter oracle (· / ·) t0).count + (w + 1)
    omega

/-- Auxiliary: the training loop reaches a terminal state: some fuel value
makes the stall counter reach `maxIter`, after which the state is frozen. -/
lemma trainLoop_terminates {n : ℕ} (K : Fin n → Fin n → ℚ) (y : Fin n → ℚ)
    (C tol : ℚ) (maxIter : ℕ) (oracle : ℕ → Fin n → Fin n)
    (hK : ∀ k l, K k l = K l k) (hy : ∀ k, y k = 1 ∨ y k = -1)
    (hC : 0 ≤ C) (htol : 0 < tol) (hor : ∀ t i, oracle t i ≠ i) :
    ∃ B : ℕ, (trainLoop K y C tol maxIter oracle (· / ·) B).count = maxIter ∧
      ∀ fuel, B ≤ fuel →
        trainLoop K y C tol maxIter oracle (· / ·) fuel
          = trainLoop K y C tol maxIter oracle (· / ·) B := by
  have hbox : ∀ t, inBox C (trainLoop K y C tol maxIter oracle (· / ·) t).alpha :=
    fun t => trainLoop_box K y C tol maxIter oracle (· / ·) hy hC t
  have hexists : ∃ t0,
      maxIter ≤ (trainLoop K y C tol maxIter oracle (· / ·) t0).count := by
    by_contra hno
    push_neg at hno
    have hP : ∀ k : ℕ, (k : ℚ) * gainMin K tol ≤
        dualW K y (trainLoop K y C tol maxIter oracle (· / ·) (k * maxIter)).alpha := by
      intro k
      induction k with
      | zero =>
        have h0 : dualW K y (trainLoop K y C tol maxIter oracle (· / ·) 0).alpha = 0 :=
          dualW_init K y
        rw [Nat.zero_mul]
        simp only [Nat.cast_zero, zero_mul]
        linarith
      | succ k ih =>
        by_cases hprod : ∃ u, k * maxIter ≤ u ∧ u < (k + 1) * maxIter ∧
            (trainLoop K y C tol maxIter oracle (· / ·) (u + 1)).count = 0
        · obtain ⟨u, hu1, hu2, hu3⟩ := hprod
          have hnt : ¬ maxIter ≤
              (trainLoop K y C tol maxIter oracle (· / ·) u).count :=
            not_le.mpr (hno u)
          have hch : (doPass K y C tol oracle (· / ·)
              (trainLoop K y C tol maxIter oracle (· / ·) u)).changed ≠ 0 := by
            intro h0
            have hc1 : (trainLoop K y C tol maxIter oracle (· / ·) (u + 1)).count
                = (trainLoop K y C tol maxIter oracle (· / ·) u).count + 1 := by
              rw [trainLoop_succ]
              unfold outerStep
              rw [if_neg hnt, if_pos h0]
              show (doPass K y C tol oracle (· / ·)
                (trainLoop K y C tol maxIter oracle (· / ·) u)).count + 1 = _
              unfold doPass
              rw [doPass_count]
            omega
          have halpha : (trainLoop K y C tol maxIter oracle (· / ·) (u + 1)).alpha
              = (doPass K y C tol oracle (· / ·)
                  (trainLoop K y C tol maxIter oracle (· / ·) u)).alpha := by
            rw [trainLoop_succ]
            unfold outerStep
            rw [if_neg hnt, if_neg hch]
          have hgain : dualW K y
              (trainLoop K y C tol maxIter oracle (· / ·) u).alpha + gainMin K tol
              ≤ dualW K y

                (trainLoop K y C tol maxIter oracle (· / ·) (u + 1)).alpha := by
            rw [halpha]
            exact doPass_dualW_productive K y C tol oracle hK hy htol hor _
              (hbox u) hch
          have h1 := trainLoop_dualW_mono K y C tol maxIter oracle hK hy hC htol
            hor (k * maxIter) u hu1
          have h2 := trainLoop_dualW_mono K y C tol maxIter oracle hK hy hC htol
            hor (u + 1) ((k + 1) * maxIter) (Nat.succ_le_of_lt hu2)
          have hcast : ((k + 1 : ℕ) : ℚ) * gainMin K tol
              = (k : ℚ) * gainMin K tol + gainMin K tol := by
            push_cast
            ring
          rw [hcast]
          linarith
        · push_neg at hprod
          have hch : ∀ v, v < maxIter →
              (doPass K y C tol oracle (· / ·)
                (trainLoop K y C tol maxIter oracle (· / ·)
                  (k * maxIter + v))).changed = 0 := by
            intro v hv
            by_contra hch0
            have hnt : ¬ maxIter ≤
                (trainLoop K y C tol maxIter oracle (· / ·) (k * maxIter + v)).count :=
              not_le.mpr (hno _)
            have hcz : (trainLoop K y C tol maxIter oracle (· / ·)
                ((k * maxIter + v) + 1)).count = 0 := by
              rw [trainLoop_succ]
              unfold outerStep
              rw [if_neg hnt, if_neg hch0]
            have hlt : k * maxIter + v < (k + 1) * maxIter := by
              have hidx : (k + 1) * maxIter = k * maxIter + maxIter := by ring
              rw [hidx]
              exact Nat.add_lt_add_left hv _
            exact absurd hcz (hprod (k * maxIter + v) (Nat.le_add_right _ _) hlt)
          have hfinal := count_grows K y C tol maxIter oracle (k * maxIter) maxIter
            (fun v hv => ⟨not_le.mpr (hno _), hch v hv⟩)
          have hidx : k * maxIter + maxIter = (k + 1) * maxIter := by ring
          rw [hidx] at hfinal
          have hlim := hno ((k + 1) * maxIter)
          exfalso
          omega
    obtain ⟨k, hk⟩ := exists_nat_gt (Mbound K y C / gainMin K tol)
    have hg := gainMin_pos K tol htol
    have hkg : Mbound K y C < (k : ℚ) * gainMin K tol := by
      rw [div_lt_iff₀ hg] at hk
      linarith
    have hMb := dualW_le_Mbound K y C _ (hbox (k * maxIter))
    have hPk := hP k
    linarith
  obtain ⟨t0, ht0⟩ := hexists
  refine ⟨t0, ?_, ?_⟩
  · have := trainLoop_count_le K y C tol maxIter oracle (· / ·) t0
    omega
  · intro fuel hf
    have habs := trainLoop_absorb K y C tol maxIter oracle (· / ·) t0 ht0 (fuel - t0)
    rw [show t0 + (fuel - t0) = fuel from by omega] at habs
    exact habs

/-- C2: for every training input and every oracle of second-index choices,
the training loop terminates: some fuel `B` brings the stall counter to
`maxIter` (that is, `maxIter` consecutive passes changed no coefficient),
within at most `n * B` pair-evaluation attempts, and all larger fuel values
leave the trained state unchanged. -/
theorem claim_c2_training_terminates {α : Type} {n : ℕ} (kernel : α → α → ℚ)
    (data : Fin n → α) (labels : Fin n → ℕ) (C tol : ℚ) (maxIter : ℕ)
    (oracle : ℕ → Fin n → Fin n)
    (hker : ∀ a b, kernel a b = kernel b a) (hC : 0 ≤ C) (htol : 0 < tol)
    (hor : ∀ t i, oracle t i ≠ i) :
    ∃ B : ℕ,
      (Train kernel data labels C tol maxIter oracle B).count = maxIter ∧
      (Train kernel data labels C tol maxIter oracle B).t ≤ n * B ∧
      ∀ fuel, B ≤ fuel →
        Train kernel data labels C tol maxIter oracle fuel
          = Train kernel data labels C tol maxIter oracle B := by
  obtain ⟨B, h1, h2⟩ := trainLoop_terminates (kernelMatrix kernel data)
    (trainLabels labels) C tol maxIter oracle
    (fun k l => hker (data k) (data l))
    (trainLabels_pm labels) hC htol hor
  exact ⟨B, h1,
    trainLoop_t_le (kernelMatrix kernel data) (trainLabels labels) C tol maxIter
      oracle (· / ·) B, h2⟩

/-- C2 witness: termination at a concrete two-point dataset with the product
kernel and a deterministic oracle. -/
theorem claim_c2_witness :
    ∃ B : ℕ,
      (Train (fun a b : ℚ => a * b) (![1, 2] : Fin 2 → ℚ) ![0, 1] 1 1 1
        (fun _ i => if i = 0 then (1 : Fin 2) else 0) B).count = 1 ∧
      (Train (fun a b : ℚ => a * b) (![1, 2] : Fin 2 → ℚ) ![0, 1] 1 1 1
        (fun _ i => if i = 0 then (1 : Fin 2) else 0) B).t ≤ 2 * B ∧
      ∀ fuel, B ≤ fuel →
        Train (fun a b : ℚ => a * b) (![1, 2] : Fin 2 → ℚ) ![0, 1] 1 1 1
          (fun _ i => if i = 0 then (1 : Fin 2) else 0) fuel
          = Train (fun a b : ℚ => a * b) (![1, 2] : Fin 2 → ℚ) ![0, 1] 1 1 1
            (fun _ i => if i = 0 then (1 : Fin 2) else 0) B := by
  have hor : ∀ (t : ℕ) (i : Fin 2),
      (fun (_ : ℕ) (i : Fin 2) => if i = 0 then (1 : Fin 2) else 0) t i ≠ i := by
    intro t i
    show (if i = 0 then (1 : Fin 2) else 0) ≠ i
    revert i
    decide
  exact claim_c2_training_terminates (fun a b : ℚ => a * b) ![1, 2] ![0, 1] 1 1 1
    (fun _ i => if i = 0 then (1 : Fin 2) else 0)
    (fun a b => mul_comm a b) (by norm_num) (by norm_num) hor

/-- C3: the code performs no input validation: on the empty training set with
the invalid hyperparameters `C = -1` and `tol = -1`, `Train` runs to normal
termination (the stall counter reaches `maxIter = 1` after one vacuous pass)
and a model is produced, instead of failing with an invalid-argument error. -/
theorem claim_c3_no_input_validation :
    (Train (fun a b : ℚ => a * b) (fun _ : Fin 0 => (0 : ℚ)) (fun _ => 0)
        (-1) (-1) 1 (fun _ i => i) 1).count = 1 ∧
    (Train (fun a b : ℚ => a * b) (fun _ : Fin 0 => (0 : ℚ)) (fun _ => 0)
        (-1) (-1) 1 (fun _ i => i) 1).t = 0 := by
  constructor <;> rfl

end KernelSVM
